import Mathlib

/-!
Verification of the Quick-Share backend (`src/backend/main.py`).

The backend is a FastAPI service over a flat upload directory.  We embed it
shallowly: Python strings become `List Char`, the upload directory becomes an
explicit `Store` (flat files plus sub-directories, each carrying a
modification time), and each route handler becomes a pure function on the
store.  Randomness (`random.choices`) is modelled by an explicit stream of
draws, and I/O failures during the cleanup sweep by an explicit oracle.
-/

namespace QuickShare

/-- Python strings, modelled as lists of characters. -/
abbrev Str := List Char

/-- `CODE_LENGTH = 6` (main.py line 35). -/
def CODE_LENGTH : Nat := 6

/-- `EXPIRATION_SECONDS = 12 * 60 * 60` (main.py line 36). -/
def EXPIRATION_SECONDS : Nat := 12 * 60 * 60

/-- Python `s.upper()` on ASCII strings. -/
def upperStr (s : Str) : Str := s.map Char.toUpper

/-- Python `s.startswith(p)`. -/
def pyStartsWith (s p : Str) : Bool := p.isPrefixOf s

/-- Python `s.endswith(p)`. -/
def pyEndsWith (s p : Str) : Bool := p.isSuffixOf s

/-- The literal `".txt"`. -/
def txtExt : Str := ['.', 't', 'x', 't']

/-- `os.path.basename` (POSIX): everything after the last `'/'`. -/
def basename (p : Str) : Str := (p.reverse.takeWhile (fun c => c ≠ '/')).reverse

/-- The extension part of `os.path.splitext` applied to a path whose basename
is `b`: the part from the last dot on, unless the characters before that dot
are all dots (then the extension is empty). -/
def extOfBase (b : Str) : Str :=
  let rpost := b.reverse.takeWhile (fun c => c ≠ '.')
  if rpost.length = b.length then []
  else if (b.take (b.length - rpost.length - 1)).any (fun c => c ≠ '.') then
    '.' :: rpost.reverse
  else []

/-- `os.path.splitext(p)[1]` (POSIX). -/
def splitextExt (p : Str) : Str := extOfBase (basename p)

/-- A flat file in the upload directory: its name (`<CODE><ext>`), its
content, and its modification time (`os.path.getmtime`). -/
structure FlatFile where
  name : Str
  content : Str
  mtime : Nat
deriving DecidableEq

/-- A sub-directory of the upload directory (a file-group namespace): its
name (the group's code), its member files (name, content) and its
modification time. -/
structure GroupDir where
  name : Str
  members : List (Str × Str)
  mtime : Nat
deriving DecidableEq

/-- The upload directory: flat files plus group sub-directories. -/
structure Store where
  files : List FlatFile
  dirs : List GroupDir
deriving DecidableEq

/-- `os.listdir(UPLOAD_DIRECTORY)`: names of flat files and sub-directories. -/
def listdirRoot (st : Store) : List Str :=
  st.files.map (fun f => f.name) ++ st.dirs.map (fun d => d.name)

/-- Look up a sub-directory by exact name (`os.path.isdir` + contents). -/
def findDir (st : Store) (nm : Str) : Option GroupDir :=
  st.dirs.find? (fun d => d.name == nm)

/-- Read a flat file's content (`open(path).read()`); `none` when the path
is not a flat file (reading a directory raises `IsADirectoryError`). -/
def readFile (st : Store) (nm : Str) : Option Str :=
  (st.files.find? (fun f => f.name == nm)).map (fun f => f.content)

/-- `os.path.exists` for a top-level path: true for files and directories. -/
def pathExists (st : Store) (nm : Str) : Bool :=
  st.files.any (fun f => f.name == nm) || st.dirs.any (fun d => d.name == nm)

/-- `os.path.isdir` for a top-level path. -/
def isDirAt (st : Store) (nm : Str) : Bool :=
  st.dirs.any (fun d => d.name == nm)

/-- `open(path, "w"/"wb")` then `write`: truncate an existing flat file or
create a fresh one, updating its modification time. -/
def writeFile (st : Store) (nm content : Str) (now : Nat) : Store :=
  if st.files.any (fun f => f.name == nm) then
    { st with files := st.files.map (fun f => if f.name == nm then ⟨nm, content, now⟩ else f) }
  else
    { st with files := st.files ++ [⟨nm, content, now⟩] }

/-- `os.remove` on a flat file. -/
def removeFile (st : Store) (nm : Str) : Store :=
  { st with files := st.files.filter (fun f => f.name != nm) }

/-- `os.makedirs(path, exist_ok=True)` for a sub-directory of the root. -/
def makeDir (st : Store) (nm : Str) (now : Nat) : Store :=
  if st.dirs.any (fun d => d.name == nm) then st
  else { st with dirs := st.dirs ++ [⟨nm, [], now⟩] }

/-- A successful `open(os.path.join(folder_path, safe_name), "wb")` plus
`write`, for a `safe_name` that names a creatable file: overwrite a member
of the same name or append a fresh one.  The failing case — `safe_name`
naming a directory entry (see `degenerateName`) — is handled at the call
site in `uploadLoop`, where the raise aborts the loop. -/
def writeMember (st : Store) (dirname member content : Str) : Store :=
  { st with dirs := st.dirs.map (fun d =>
      if d.name == dirname then
        { d with members :=
            if d.members.any (fun m => m.1 == member) then
              d.members.map (fun m => if m.1 == member then (member, content) else m)
            else d.members ++ [(member, content)] }
      else d) }

/-- Member names of the sub-directory named `code` (empty when absent). -/
def groupMembers (st : Store) (code : Str) : List Str :=
  match findDir st code with
  | some d => d.members.map (fun m => m.1)
  | none => []

/-- Python `content.replace('\r\n', '\n')`: left-to-right, non-overlapping. -/
def replaceCRLF : Str → Str
  | '\r' :: '\n' :: rest => '\n' :: replaceCRLF rest
  | c :: rest => c :: replaceCRLF rest
  | [] => []

/-- Python `content.replace('\r', '\n')`. -/
def replaceCR (s : Str) : Str := s.map (fun c => if c = '\r' then '\n' else c)

/-- The line-ending normalization performed by `create_upload` (line 115)
and `update_text` (line 172): `content.replace('\r\n', '\n').replace('\r', '\n')`. -/
def normalize (s : Str) : Str := replaceCR (replaceCRLF s)

/-- `string.ascii_uppercase`. -/
def ascii_uppercase : Str := "ABCDEFGHIJKLMNOPQRSTUVWXYZ".toList

/-- One outcome of `random.choices(string.ascii_uppercase, k=CODE_LENGTH)`:
a list of `CODE_LENGTH` independent draws from the 26-letter alphabet. -/
def codeOfDraw (d : Fin CODE_LENGTH → Fin 26) : Str :=
  List.ofFn (fun j => ascii_uppercase.getD (d j).val 'A')

/-- The collision scan inside `generate_unique_code` (lines 79-83):
some listed name starts with the candidate code. -/
def codeCollides (code : Str) (listing : List Str) : Bool :=
  listing.any (fun filename => pyStartsWith filename code)

/-- `generate_unique_code` (lines 75-85): draw candidates until one does not
collide with the current directory listing.  The unbounded `while True` loop
is given an explicit, arbitrarily long stream of draws; `none` means the
stream was exhausted. -/
def generate_unique_code (listing : List Str) :
    List (Fin CODE_LENGTH → Fin 26) → Option Str
  | [] => none
  | d :: draws =>
    let code := codeOfDraw d
    if codeCollides code listing then generate_unique_code listing draws
    else some code

/-- One iteration of the `cleanup_old_files` loop (lines 52-63) on the entry
named `nm`.  `ioErr` is an oracle for I/O failures (`getmtime`/`remove`
raising); any such exception is caught and the entry skipped.  For a
sub-directory, `os.remove` always raises `IsADirectoryError`, which the
`except Exception` clause also swallows, so directories are never removed;
a name that is no longer present raises `FileNotFoundError` and is skipped. -/
def cleanupEntry (st : Store) (now : Nat) (ioErr : Str → Bool) (nm : Str) : Store :=
  if ioErr nm then st
  else
    match st.files.find? (fun f => f.name == nm) with
    | some f => if now - f.mtime > EXPIRATION_SECONDS then removeFile st nm else st
    | none => st

/-- The `for filename in os.listdir(...)` loop of `cleanup_old_files` over a
fixed listing snapshot. -/
def sweepNames (now : Nat) (ioErr : Str → Bool) : List Str → Store → Store
  | [], st => st
  | nm :: rest, st => sweepNames now ioErr rest (cleanupEntry st now ioErr nm)

/-- `cleanup_old_files` (lines 48-63): snapshot the listing, then process
each entry in turn. -/
def cleanup_old_files (st : Store) (now : Nat) (ioErr : Str → Bool) : Store :=
  sweepNames now ioErr (listdirRoot st) st

/-- The no-failure oracle: every `getmtime`/`remove` call succeeds. -/
def noIOErr : Str → Bool := fun _ => false

/-- An oracle that fails exactly on the entry named `AAAAAA.txt`. -/
def ioErrOnA : Str → Bool := fun nm => nm == "AAAAAA.txt".toList

/-- Result of `find_file_by_code` (lines 180-216). -/
inductive FindResult where
  | multiple (files : List Str) (folder : Str)
  | text (content : Str) (filename : Str)
  | file (filename : Str)
  | notFound
deriving DecidableEq

/-- `find_file_by_code` (lines 180-216): uppercase the code; a non-empty
sub-directory wins; an empty sub-directory is 404; otherwise scan the root
listing for the first name starting with the code; `.txt` names are read and
returned inline (a read failure falls through to the plain-file answer). -/
def find_file_by_code (st : Store) (code : Str) : FindResult :=
  let c := upperStr code
  match findDir st c with
  | some d =>
    if d.members.isEmpty then .notFound
    else .multiple (d.members.map (fun m => m.1)) c
  | none =>
    match (listdirRoot st).find? (fun filename => pyStartsWith filename c) with
    | none => .notFound
    | some fn =>
      if pyEndsWith fn txtExt then
        match readFile st fn with
        | some content => .text content fn
        | none => .file fn
      else .file fn

/-- Result of `update_text` (lines 162-177): success carries the new store;
`codeNotFound` is the 404; `ioError` models `open` raising (e.g. the path
`<CODE>.txt` naming a directory). -/
inductive UpdateResult where
  | updated (st : Store)
  | codeNotFound
  | ioError
deriving DecidableEq

/-- The store carried by a successful `update_text` outcome (the empty store
otherwise; a failing update writes nothing). -/
def UpdateResult.storeD : UpdateResult → Store
  | .updated st => st
  | _ => ⟨[], []⟩

/-- `update_text` (lines 162-177): uppercase the code, require the flat path
`<CODE>.txt` to exist, then overwrite it with the normalized content. -/
def update_text (st : Store) (code content : Str) (now : Nat) : UpdateResult :=
  let c := upperStr code
  let filename := c ++ txtExt
  if pathExists st filename then
    if isDirAt st filename then .ioError
    else .updated (writeFile st filename (normalize content) now)
  else .codeNotFound

/-- An `UploadFile` argument: `filename` is `Optional[str]`, plus content. -/
structure FileIn where
  filename : Option Str
  content : Str
deriving DecidableEq

/-- Python truthiness of an `Optional[str]`: `None` and `""` are falsy. -/
def truthyOptStr : Option Str → Bool
  | none => false
  | some s => !s.isEmpty

/-- Truthiness of `file and file.filename` for an optional `UploadFile`. -/
def fileProvided : Option FileIn → Bool
  | none => false
  | some f => truthyOptStr f.filename

/-- Result of `create_upload` (lines 99-121): `noContent` is the guard's 400
("No text or file provided."), `invalidRequest` the trailing 400
("Invalid request."). -/
inductive CreateResult where
  | noContent
  | fileSaved (st : Store) (code : Str)
  | textSaved (st : Store) (code : Str)
  | invalidRequest
deriving DecidableEq

/-- The store carried by a successful `create_upload` outcome (the empty
store for the 400 outcomes, which write nothing). -/
def CreateResult.storeD : CreateResult → Store
  | .fileSaved st _ => st
  | .textSaved st _ => st
  | _ => ⟨[], []⟩

/-- `create_upload` (lines 99-121), parametrized by the code returned by
`generate_unique_code`: guard, then the file branch, then the text branch,
then the trailing "Invalid request." 400. -/
def create_upload (st : Store) (code : Str) (text_content : Option Str)
    (file : Option FileIn) (now : Nat) : CreateResult :=
  if !truthyOptStr text_content && !fileProvided file then .noContent
  else if fileProvided file then
    let fname := (file.map (fun f => f.filename.getD [])).getD []
    let fcontent := (file.map (fun f => f.content)).getD []
    .fileSaved (writeFile st (code ++ splitextExt fname) fcontent now) code
  else if truthyOptStr text_content then
    .textSaved (writeFile st (code ++ txtExt) (normalize (text_content.getD [])) now) code
  else .invalidRequest

/-- Result of `upload_multiple` (lines 123-159): `noFiles` is the 400 for an
empty file list, `noValid` the 400 after every filename was empty (note the
folder has already been created by then), and `ioError` an uncaught
exception from `open` inside the loop — the request fails with a server
error; the carried store is the state at the raise (earlier members and the
folder itself persist). -/
inductive MultiResult where
  | noFiles
  | noValid (st : Store)
  | ok (st : Store) (code : Str) (files : List Str)
  | ioError (st : Store)
deriving DecidableEq

/-- Basenames that name a directory entry rather than a creatable file:
`""` (a client filename ending in `/`), `"."`, and `".."`.  For such a
`safe_name`, `open(os.path.join(folder_path, safe_name), "wb")`
(main.py line 147) targets a directory and raises `IsADirectoryError`. -/
def degenerateName (s : Str) : Bool :=
  s == [] || s == ['.'] || s == ['.', '.']

/-- The success-path body of the `for i, file in enumerate(files, ...)` loop
of `upload_multiple` (lines 138-150): skip an empty filename, otherwise
write the blob under the basename of its client filename and record that
name.  Used to state what `uploadLoop` computes when no open fails. -/
def uploadStep (code : Str) (acc : Store × List Str) (pf : Str × Str) :
    Store × List Str :=
  if pf.1.isEmpty then acc
  else (writeMember acc.1 code (basename pf.1) pf.2, acc.2 ++ [basename pf.1])

/-- The `for i, file in enumerate(files, ...)` loop of `upload_multiple`
(lines 138-150).  A member whose non-empty client filename has a degenerate
basename makes `open` raise `IsADirectoryError`; `upload_multiple` has no
handler, so the loop aborts there, returning the store as persisted so far. -/
def uploadLoop (code : Str) :
    List (Str × Str) → Store × List Str → Except Store (Store × List Str)
  | [], acc => .ok acc
  | pf :: rest, acc =>
    if pf.1.isEmpty then uploadLoop code rest acc
    else if degenerateName (basename pf.1) then .error acc.1
    else uploadLoop code rest
      (writeMember acc.1 code (basename pf.1) pf.2, acc.2 ++ [basename pf.1])

/-- `upload_multiple` (lines 123-159), parametrized by the generated code:
make the folder, save each file with a non-empty name under the basename of
its client filename, and 400 if nothing was saved.  An `IsADirectoryError`
raised by `open` inside the loop propagates out as a server error. -/
def upload_multiple (st : Store) (code : Str) (files : List (Str × Str))
    (now : Nat) : MultiResult :=
  if files.isEmpty then .noFiles
  else
    match uploadLoop code files (makeDir st code now, ([] : List Str)) with
    | .error stPart => .ioError stPart
    | .ok res =>
      if res.2.isEmpty then .noValid res.1
      else .ok res.1 code res.2

/-- The store carried by an `upload_multiple` outcome (the empty store for
the no-files 400, which touches nothing). -/
def MultiResult.storeD : MultiResult → Store
  | .ok st _ _ => st
  | .noValid st => st
  | .ioError st => st
  | .noFiles => ⟨[], []⟩

/-- Whether an `upload_multiple` outcome is the "No valid files" 400. -/
def MultiResult.isNoValid : MultiResult → Bool
  | .noValid _ => true
  | _ => false

/-- `get_file_from_folder` (lines 272-280): serve
`uploads/<code>/<filename>` if it exists, 404 otherwise.  Note: the code is
used exactly as given — this handler does not uppercase it. -/
def get_file_from_folder (st : Store) (code filename : Str) : Bool :=
  match findDir st code with
  | some d => d.members.any (fun m => m.1 == filename)
  | none => false

/-! ## General lemmas about the embedded operations -/

theorem replaceCR_no_cr (s : Str) : '\r' ∉ replaceCR s := by
  intro h
  rcases List.mem_map.1 h with ⟨c, _, hc⟩
  by_cases h' : c = '\r'
  · simp [h'] at hc
  · rw [if_neg h'] at hc
    exact h' hc

theorem normalize_no_cr (s : Str) : '\r' ∉ normalize s :=
  replaceCR_no_cr _

theorem replaceCRLF_of_no_cr (s : Str) (h : '\r' ∉ s) : replaceCRLF s = s := by
  induction s using replaceCRLF.induct with
  | case1 rest ih => simp at h
  | case2 c rest hne ih =>
    rw [replaceCRLF.eq_2 c rest hne, ih (fun hm => h (List.mem_cons_of_mem c hm))]
  | case3 => rfl

theorem replaceCR_of_no_cr (s : Str) (h : '\r' ∉ s) : replaceCR s = s := by
  have hc : ∀ a ∈ s, (fun c => if c = '\r' then '\n' else c) a = id a := by
    intro a ha
    have : a ≠ '\r' := fun e => h (e ▸ ha)
    simp [this]
  unfold replaceCR
  rw [List.map_congr_left hc, List.map_id]

theorem normalize_idempotent (s : Str) : normalize (normalize s) = normalize s := by
  conv_lhs => rw [normalize, replaceCRLF_of_no_cr _ (normalize_no_cr s),
    replaceCR_of_no_cr _ (normalize_no_cr s)]

theorem pyStartsWith_refl (c : Str) : pyStartsWith c c = true := by
  simp [pyStartsWith, List.isPrefixOf_iff_prefix]

theorem pyStartsWith_of_append (c rest : Str) : pyStartsWith (c ++ rest) c = true := by
  simp [pyStartsWith, List.isPrefixOf_iff_prefix]

theorem pyEndsWith_of_append (c rest : Str) : pyEndsWith (c ++ rest) rest = true := by
  simp [pyEndsWith, List.isSuffixOf_iff_suffix]

/-! ## C10 - the trailing "Invalid request." branch of `create_upload` -/

/-- C10: for every request, `create_upload` never reaches the trailing
`Invalid request.` 400: any request that passes the initial guard (which
rejects requests with neither text content nor a file with a non-empty
filename) returns from the file branch or the text branch. -/
theorem create_upload_trailing_branch_unreachable (st : Store) (code : Str)
    (text_content : Option Str) (file : Option FileIn) (now : Nat) :
    create_upload st code text_content file now ≠ CreateResult.invalidRequest := by
  unfold create_upload
  cases h1 : truthyOptStr text_content <;> cases h2 : fileProvided file <;>
    simp [h1, h2]

/-- C10 witness: the theorem applied at a concrete request. -/
theorem create_upload_trailing_branch_unreachable_witness :
    create_upload ⟨[], []⟩ "ABCDEF".toList (some "hi".toList) none 3
      ≠ CreateResult.invalidRequest :=
  create_upload_trailing_branch_unreachable ⟨[], []⟩ "ABCDEF".toList
    (some "hi".toList) none 3

/-! ## C1 - the expiry sweep -/

/-- C1: the sweep honours the strict TTL boundary for flat files (a file of
age `TTL - 1s` survives, one of age `TTL + 1s` is removed), but — contrary
to the claim — a file-group sub-directory whose age strictly exceeds the TTL
is NOT deleted: `os.remove` raises `IsADirectoryError` on a directory, the
`except Exception` clause swallows it, and the group survives every sweep. -/
theorem cleanup_boundary_but_group_survives :
    (cleanup_old_files ⟨[⟨"GGGGGG.txt".toList, "old".toList, 2⟩], []⟩
        (EXPIRATION_SECONDS + 1) noIOErr
      = ⟨[⟨"GGGGGG.txt".toList, "old".toList, 2⟩], []⟩) ∧
    (cleanup_old_files ⟨[⟨"GGGGGG.txt".toList, "old".toList, 0⟩], []⟩
        (EXPIRATION_SECONDS + 1) noIOErr
      = ⟨[], []⟩) ∧
    (cleanup_old_files
        ⟨[], [⟨"ABCDEF".toList, [("a.txt".toList, "hi".toList)], 0⟩]⟩
        (EXPIRATION_SECONDS + 1) noIOErr
      = ⟨[], [⟨"ABCDEF".toList, [("a.txt".toList, "hi".toList)], 0⟩]⟩) :=
  ⟨by decide, by decide, by decide⟩

/-! ## C7 - code normalization across lookup paths -/

/-- C7: code normalization is NOT applied identically on every lookup path.
For one and the same store, the resolve path (`find_file_by_code`) uppercases
its argument and resolves the lowercase spelling `abcdef` to the group
`ABCDEF`, while the group-member download path (`get_file_from_folder`) uses
the code verbatim: it serves the member under `ABCDEF` but 404s under
`abcdef`. -/
theorem group_download_misses_lowercase_code :
    (get_file_from_folder
        ⟨[], [⟨"ABCDEF".toList, [("a.txt".toList, "hi".toList)], 0⟩]⟩
        "ABCDEF".toList "a.txt".toList = true) ∧
    (get_file_from_folder
        ⟨[], [⟨"ABCDEF".toList, [("a.txt".toList, "hi".toList)], 0⟩]⟩
        "abcdef".toList "a.txt".toList = false) ∧
    (find_file_by_code
        ⟨[], [⟨"ABCDEF".toList, [("a.txt".toList, "hi".toList)], 0⟩]⟩
        "abcdef".toList
      = FindResult.multiple ["a.txt".toList] "ABCDEF".toList) :=
  ⟨by decide, by decide, by decide⟩

/-! ## C2 - the code allocator -/

theorem codeOfDraw_length (d : Fin CODE_LENGTH → Fin 26) :
    (codeOfDraw d).length = CODE_LENGTH := by
  simp [codeOfDraw]
  rfl

theorem codeOfDraw_mem (d : Fin CODE_LENGTH → Fin 26) :
    ∀ ch ∈ codeOfDraw d, ch ∈ ascii_uppercase := by
  intro ch hch
  rcases (List.mem_ofFn _ _).1 hch with ⟨j, hj⟩
  have hlt : ((d j) : Nat) < ascii_uppercase.length := by
    have h26 : ascii_uppercase.length = 26 := by decide
    rw [h26]; exact (d j).isLt
  have hj' : ascii_uppercase.getD ((d j) : Nat) 'A' = ch := hj
  rw [← hj', List.getD_eq_getElem _ _ hlt]
  exact List.getElem_mem hlt

/-- C2: whenever `generate_unique_code` returns a code, that code has length
exactly `CODE_LENGTH = 6`, consists only of uppercase ASCII letters, is not
a prefix of any currently listed entry's stored identifier, and hence
differs from the (normalized, length-6) code of every live entry — so no two
live entries share a code. -/
theorem generate_unique_code_spec (listing : List Str)
    (draws : List (Fin CODE_LENGTH → Fin 26)) (c : Str)
    (h : generate_unique_code listing draws = some c) :
    c.length = CODE_LENGTH ∧
    (∀ ch ∈ c, ch ∈ ascii_uppercase) ∧
    (∀ nm ∈ listing, pyStartsWith nm c = false) ∧
    (∀ nm ∈ listing, CODE_LENGTH ≤ nm.length → nm.take CODE_LENGTH ≠ c) := by
  induction draws with
  | nil => simp [generate_unique_code] at h
  | cons d rest ih =>
    by_cases hc : codeCollides (codeOfDraw d) listing = true
    · rw [generate_unique_code] at h
      simp only [hc, if_true] at h
      exact ih h
    · have hcf : codeCollides (codeOfDraw d) listing = false := by
        simpa using hc
      rw [generate_unique_code] at h
      simp [hcf] at h
      subst h
      have hnostart : ∀ nm ∈ listing,
          pyStartsWith nm (codeOfDraw d) = false := by
        intro nm hnm
        have hany : listing.any
            (fun filename => pyStartsWith filename (codeOfDraw d)) = false := by
          simpa [codeCollides] using hcf
        simpa using List.any_eq_false.1 hany nm hnm
      refine ⟨codeOfDraw_length d, codeOfDraw_mem d, hnostart, ?_⟩
      intro nm hnm hlen htake
      have hpre : codeOfDraw d <+: nm := by
        rw [List.prefix_iff_eq_take, codeOfDraw_length d]
        exact htake.symm
      have hstart : pyStartsWith nm (codeOfDraw d) = true := by
        simpa [pyStartsWith] using List.isPrefixOf_iff_prefix.2 hpre
      rw [hnostart nm hnm] at hstart
      exact Bool.false_ne_true hstart

/-- C2 witness: the theorem applied to a concrete listing and draw stream. -/
theorem generate_unique_code_spec_witness :
    ("AAAAAA".toList).length = CODE_LENGTH ∧
    pyStartsWith "XYZ.txt".toList "AAAAAA".toList = false := by
  have h := generate_unique_code_spec ["XYZ.txt".toList]
    [fun _ => ⟨0, by decide⟩] "AAAAAA".toList (by decide)
  exact ⟨h.1, h.2.2.1 "XYZ.txt".toList (by simp)⟩

/-! ## C3 - classification in `find_file_by_code` -/

/-- C3: `find_file_by_code` checks for a group sub-directory first: a
non-empty directory named by the normalized code yields the group listing;
an existing but EMPTY directory yields `notFound` (never a zero-member
group, and no fall-through to the single-entry scan); and when no directory
and no prefix-matching listed name exist, the result is `notFound`. -/
theorem find_file_by_code_classification (st : Store) (code : Str) :
    (∀ d, findDir st (upperStr code) = some d → d.members ≠ [] →
        find_file_by_code st code
          = FindResult.multiple (d.members.map (fun m => m.1)) (upperStr code)) ∧
    (∀ d, findDir st (upperStr code) = some d → d.members = [] →
        find_file_by_code st code = FindResult.notFound) ∧
    (findDir st (upperStr code) = none →
      (∀ nm ∈ listdirRoot st, pyStartsWith nm (upperStr code) = false) →
      find_file_by_code st code = FindResult.notFound) := by
  refine ⟨?_, ?_, ?_⟩
  · intro d hd hne
    simp [find_file_by_code, hd, List.isEmpty_iff, hne]
  · intro d hd he
    simp [find_file_by_code, hd, List.isEmpty_iff, he]
  · intro hd hnone
    have hfind : (listdirRoot st).find?
        (fun filename => pyStartsWith filename (upperStr code)) = none :=
      List.find?_eq_none.2 (fun nm hnm => by simp [hnone nm hnm])
    simp [find_file_by_code, hd, hfind]

/-- C3 witness: all three classifications at concrete stores — a non-empty
group, an empty group directory shadowing a prefix-matching flat file, and a
miss. -/
theorem find_file_by_code_classification_witness :
    (find_file_by_code
        ⟨[], [⟨"ABCDEF".toList, [("a.txt".toList, "hi".toList)], 0⟩]⟩
        "abcdef".toList
      = FindResult.multiple ["a.txt".toList] "ABCDEF".toList) ∧
    (find_file_by_code
        ⟨[⟨"ABCDEF.txt".toList, "x".toList, 0⟩], [⟨"ABCDEF".toList, [], 0⟩]⟩
        "abcdef".toList
      = FindResult.notFound) ∧
    (find_file_by_code ⟨[⟨"GGGGGG.txt".toList, "x".toList, 0⟩], []⟩
        "abcdef".toList
      = FindResult.notFound) := by
  refine ⟨?_, ?_, ?_⟩
  · exact (find_file_by_code_classification _ _).1
      ⟨"ABCDEF".toList, [("a.txt".toList, "hi".toList)], 0⟩ (by decide) (by decide)
  · exact (find_file_by_code_classification _ _).2.1
      ⟨"ABCDEF".toList, [], 0⟩ (by decide) (by decide)
  · exact (find_file_by_code_classification _ _).2.2 (by decide) (by decide)

/-! ## C8 - the sweep is resilient to per-entry failures -/

theorem cleanupEntry_dirs (st : Store) (now : Nat) (ioErr : Str → Bool) (nm : Str) :
    (cleanupEntry st now ioErr nm).dirs = st.dirs := by
  unfold cleanupEntry
  split
  · rfl
  · split
    · split <;> rfl
    · rfl

theorem cleanupEntry_mem (st : Store) (now : Nat) (ioErr : Str → Bool) (nm : Str)
    (huniq : ∀ f1 ∈ st.files, ∀ f2 ∈ st.files, f1.name = f2.name → f1 = f2)
    (f : FlatFile) :
    f ∈ (cleanupEntry st now ioErr nm).files ↔
      (f ∈ st.files ∧ (f.name = nm →
        (ioErr nm = true ∨ now - f.mtime ≤ EXPIRATION_SECONDS))) := by
  unfold cleanupEntry
  by_cases hio : ioErr nm = true
  · rw [if_pos hio]
    simp [hio]
  · have hiof : ioErr nm = false := by simpa using hio
    rw [if_neg hio]
    cases hfind : st.files.find? (fun g => g.name == nm) with
    | none =>
      simp only [hfind]
      have hnone : ∀ g ∈ st.files, g.name ≠ nm := by
        intro g hg
        have := List.find?_eq_none.1 hfind g hg
        simpa using this
      constructor
      · intro hf
        exact ⟨hf, fun he => absurd he (hnone f hf)⟩
      · exact fun h => h.1
    | some f0 =>
      have hf0mem : f0 ∈ st.files := List.mem_of_find?_eq_some hfind
      have hf0name : f0.name = nm := by simpa using List.find?_some hfind
      simp only [hfind]
      by_cases hexp : now - f0.mtime > EXPIRATION_SECONDS
      · rw [if_pos hexp]
        unfold removeFile
        simp only [List.mem_filter]
        constructor
        · rintro ⟨hf, hne⟩
          refine ⟨hf, fun he => ?_⟩
          exfalso
          rw [he] at hne
          simp at hne
        · rintro ⟨hf, himp⟩
          refine ⟨hf, ?_⟩
          by_cases he : f.name = nm
          · exfalso
            have hff0 : f = f0 := huniq f hf f0 hf0mem (he.trans hf0name.symm)
            rcases himp he with hcase | hcase
            · rw [hiof] at hcase
              exact Bool.false_ne_true hcase
            · rw [hff0] at hcase
              exact absurd hcase (not_le.2 hexp)
          · simp [he]
      · rw [if_neg hexp]
        constructor
        · intro hf
          refine ⟨hf, fun he => Or.inr ?_⟩
          have hff0 : f = f0 := huniq f hf f0 hf0mem (he.trans hf0name.symm)
          rw [hff0]
          exact le_of_not_lt hexp
        · exact fun h => h.1

theorem cleanupEntry_uniq (st : Store) (now : Nat) (ioErr : Str → Bool) (nm : Str)
    (huniq : ∀ f1 ∈ st.files, ∀ f2 ∈ st.files, f1.name = f2.name → f1 = f2) :
    ∀ f1 ∈ (cleanupEntry st now ioErr nm).files,
      ∀ f2 ∈ (cleanupEntry st now ioErr nm).files, f1.name = f2.name → f1 = f2 := by
  intro f1 h1 f2 h2 hnames
  exact huniq f1 ((cleanupEntry_mem st now ioErr nm huniq f1).1 h1).1
    f2 ((cleanupEntry_mem st now ioErr nm huniq f2).1 h2).1 hnames

theorem sweepNames_dirs (now : Nat) (ioErr : Str → Bool) :
    ∀ (names : List Str) (st : Store), (sweepNames now ioErr names st).dirs = st.dirs
  | [], _ => rfl
  | nm :: rest, st => by
    rw [sweepNames, sweepNames_dirs now ioErr rest _, cleanupEntry_dirs]

theorem sweepNames_mem (now : Nat) (ioErr : Str → Bool) :
    ∀ (names : List Str) (st : Store),
      (∀ f1 ∈ st.files, ∀ f2 ∈ st.files, f1.name = f2.name → f1 = f2) →
      ∀ f : FlatFile,
      (f ∈ (sweepNames now ioErr names st).files ↔
        (f ∈ st.files ∧ (f.name ∈ names →
          (ioErr f.name = true ∨ now - f.mtime ≤ EXPIRATION_SECONDS))))
  | [], st, _, f => by simp [sweepNames]
  | nm :: rest, st, huniq, f => by
    rw [sweepNames]
    rw [sweepNames_mem now ioErr rest (cleanupEntry st now ioErr nm)
      (cleanupEntry_uniq st now ioErr nm huniq) f]
    rw [cleanupEntry_mem st now ioErr nm huniq f]
    constructor
    · rintro ⟨⟨hf, h1⟩, h2⟩
      refine ⟨hf, fun hmem => ?_⟩
      rcases List.mem_cons.1 hmem with he | hr
      · rw [he]
        exact h1 he
      · exact h2 hr
    · rintro ⟨hf, h⟩
      refine ⟨⟨hf, fun he => ?_⟩, fun hr => h (List.mem_cons_of_mem nm hr)⟩
      rw [← he]
      exact h (by rw [he]; exact List.mem_cons_self nm rest)

/-- C8: one sweep of `cleanup_old_files`, run with an arbitrary per-entry
I/O-failure oracle, never aborts: it is a total function whose result
deletes exactly the flat files that are expired AND whose deletion did not
fail, independently of failures on any other entry; every other file, and
every directory, survives. -/
theorem cleanup_sweep_resilient (st : Store) (now : Nat) (ioErr : Str → Bool)
    (huniq : ∀ f1 ∈ st.files, ∀ f2 ∈ st.files, f1.name = f2.name → f1 = f2) :
    (cleanup_old_files st now ioErr).dirs = st.dirs ∧
    ∀ f : FlatFile, f ∈ (cleanup_old_files st now ioErr).files ↔
      (f ∈ st.files ∧ (ioErr f.name = true ∨ now - f.mtime ≤ EXPIRATION_SECONDS)) := by
  constructor
  · rw [cleanup_old_files]
    exact sweepNames_dirs now ioErr _ st
  · intro f
    rw [cleanup_old_files, sweepNames_mem now ioErr (listdirRoot st) st huniq f]
    constructor
    · rintro ⟨hf, h⟩
      exact ⟨hf, h (List.mem_append_left _ (List.mem_map_of_mem _ hf))⟩
    · rintro ⟨hf, h⟩
      exact ⟨hf, fun _ => h⟩

/-- C8 witness: a sweep over two expired files (one whose deletion fails and
is kept, one deleted) and a directory, at concrete inputs. -/
theorem cleanup_sweep_resilient_witness :
    (cleanup_old_files
        ⟨[⟨"AAAAAA.txt".toList, "a".toList, 0⟩, ⟨"BBBBBB.txt".toList, "b".toList, 0⟩],
         [⟨"CCCCCC".toList, [("c.txt".toList, "c".toList)], 0⟩]⟩
        (EXPIRATION_SECONDS + 1) ioErrOnA).dirs
      = [⟨"CCCCCC".toList, [("c.txt".toList, "c".toList)], 0⟩] ∧
    ((⟨"BBBBBB.txt".toList, "b".toList, 0⟩ : FlatFile) ∈
        (cleanup_old_files
          ⟨[⟨"AAAAAA.txt".toList, "a".toList, 0⟩, ⟨"BBBBBB.txt".toList, "b".toList, 0⟩],
           [⟨"CCCCCC".toList, [("c.txt".toList, "c".toList)], 0⟩]⟩
          (EXPIRATION_SECONDS + 1) ioErrOnA).files ↔
      ((⟨"BBBBBB.txt".toList, "b".toList, 0⟩ : FlatFile) ∈
          [(⟨"AAAAAA.txt".toList, "a".toList, 0⟩ : FlatFile),
           ⟨"BBBBBB.txt".toList, "b".toList, 0⟩] ∧
        (ioErrOnA "BBBBBB.txt".toList = true ∨
          EXPIRATION_SECONDS + 1 - 0 ≤ EXPIRATION_SECONDS))) := by
  have h := cleanup_sweep_resilient
    ⟨[⟨"AAAAAA.txt".toList, "a".toList, 0⟩, ⟨"BBBBBB.txt".toList, "b".toList, 0⟩],
     [⟨"CCCCCC".toList, [("c.txt".toList, "c".toList)], 0⟩]⟩
    (EXPIRATION_SECONDS + 1) ioErrOnA (by decide)
  exact ⟨h.1, h.2 ⟨"BBBBBB.txt".toList, "b".toList, 0⟩⟩

/-! ## C5 - the update path touches only the text entry `<CODE>.txt` -/

/-- C5: `update_text` fails with 404 exactly when no flat file named
`<CODE>.txt` (the storage form of a live Text entry) exists; in that case
nothing is written, so a code backing a non-`.txt` single file or a file
group cannot be created, overwritten or converted through the update path.
On success the store keeps exactly the same file names and directories. -/
theorem update_text_only_text (st : Store) (code content : Str) (now : Nat)
    (hd : ∀ d ∈ st.dirs, d.name ≠ upperStr code ++ txtExt) :
    (update_text st code content now = UpdateResult.codeNotFound ↔
      ∀ f ∈ st.files, f.name ≠ upperStr code ++ txtExt) ∧
    (∀ st', update_text st code content now = UpdateResult.updated st' →
      st'.files.map (fun f => f.name) = st.files.map (fun f => f.name) ∧
      st'.dirs = st.dirs) := by
  have hdirs : st.dirs.any (fun d => d.name == upperStr code ++ txtExt) = false := by
    apply List.any_eq_false.2
    intro d hdm
    simpa using hd d hdm
  by_cases hfile : st.files.any (fun f => f.name == upperStr code ++ txtExt) = true
  · have hpe : pathExists st (upperStr code ++ txtExt) = true := by
      simp [pathExists, hfile]
    have hnd : isDirAt st (upperStr code ++ txtExt) = false := by
      simpa [isDirAt] using hdirs
    have hupd : update_text st code content now
        = UpdateResult.updated
            (writeFile st (upperStr code ++ txtExt) (normalize content) now) := by
      simp [update_text, hpe, hnd]
    constructor
    · rw [hupd]
      simp only [reduceCtorEq, false_iff]
      rcases List.any_eq_true.1 hfile with ⟨f0, hf0, hname⟩
      intro hall
      exact hall f0 hf0 (by simpa using hname)
    · intro st' h
      rw [hupd] at h
      have hst' : writeFile st (upperStr code ++ txtExt) (normalize content) now = st' := by
        injection h
      rw [← hst']
      unfold writeFile
      rw [if_pos hfile]
      refine ⟨?_, rfl⟩
      rw [List.map_map]
      apply List.map_congr_left
      intro a _
      simp only [Function.comp_apply]
      by_cases hna : a.name = upperStr code ++ txtExt
      · rw [if_pos (by simpa using hna)]
        exact hna.symm
      · rw [if_neg (by simpa using hna)]
  · have hfilef : st.files.any (fun f => f.name == upperStr code ++ txtExt) = false := by
      simpa using hfile
    have hpe : pathExists st (upperStr code ++ txtExt) = false := by
      simp [pathExists, hfilef, hdirs]
    have hupd : update_text st code content now = UpdateResult.codeNotFound := by
      simp [update_text, hpe]
    constructor
    · rw [hupd]
      simp only [true_iff]
      intro f hf
      have := List.any_eq_false.1 hfilef f hf
      simpa using this
    · intro st' h
      rw [hupd] at h
      exact absurd h (by simp)

/-- C5 witness: updating a code that backs a file group fails 404. -/
theorem update_text_only_text_witness :
    update_text ⟨[], [⟨"ABCDEF".toList, [("a.txt".toList, "hi".toList)], 0⟩]⟩
        "abcdef".toList "x".toList 7
      = UpdateResult.codeNotFound := by
  have h := update_text_only_text
    ⟨[], [⟨"ABCDEF".toList, [("a.txt".toList, "hi".toList)], 0⟩]⟩
    "abcdef".toList "x".toList 7 (by decide)
  exact h.1.mpr (by simp)

/-! ## C4 - text round-trip with line-ending normalization -/

theorem files_fresh_no_name (st : Store) (code rest : Str)
    (hfresh : ∀ nm ∈ listdirRoot st, pyStartsWith nm code = false) :
    ∀ f ∈ st.files, (f.name == code ++ rest) = false := by
  intro f hf
  by_cases he : f.name = code ++ rest
  · exfalso
    have hmem : f.name ∈ listdirRoot st :=
      List.mem_append_left _ (List.mem_map_of_mem _ hf)
    have hh := hfresh f.name hmem
    rw [he, pyStartsWith_of_append] at hh
    simp at hh
  · simpa using he

theorem dirs_fresh_no_name (st : Store) (code rest : Str)
    (hfresh : ∀ nm ∈ listdirRoot st, pyStartsWith nm code = false) :
    ∀ d ∈ st.dirs, (d.name == code ++ rest) = false := by
  intro d hd
  by_cases he : d.name = code ++ rest
  · exfalso
    have hmem : d.name ∈ listdirRoot st :=
      List.mem_append_right _ (List.mem_map_of_mem _ hd)
    have hh := hfresh d.name hmem
    rw [he, pyStartsWith_of_append] at hh
    simp at hh
  · simpa using he

/-- Looking up a fresh code in a store extended with the flat file
`<code>.txt` yields exactly that text entry. -/
theorem find_text_fresh (st : Store) (code content : Str) (mt : Nat)
    (hup : upperStr code = code)
    (hfresh : ∀ nm ∈ listdirRoot st, pyStartsWith nm code = false) :
    find_file_by_code ⟨st.files ++ [⟨code ++ txtExt, content, mt⟩], st.dirs⟩ code
      = FindResult.text content (code ++ txtExt) := by
  set st' : Store := ⟨st.files ++ [⟨code ++ txtExt, content, mt⟩], st.dirs⟩ with hst'
  have hdir' : findDir st' code = none := by
    apply List.find?_eq_none.2
    intro d hdm hbeq
    have hname : d.name = code := by simpa using hbeq
    have hmem : d.name ∈ listdirRoot st := by
      apply List.mem_append_right
      apply List.mem_map_of_mem
      simpa [hst'] using hdm
    have hh := hfresh d.name hmem
    rw [hname, pyStartsWith_refl] at hh
    simp at hh
  have hlist : listdirRoot st'
      = (st.files.map (fun f => f.name) ++ [code ++ txtExt])
          ++ st.dirs.map (fun d => d.name) := by
    simp [listdirRoot, hst']
  have hfind : (listdirRoot st').find? (fun fn => pyStartsWith fn code)
      = some (code ++ txtExt) := by
    rw [hlist, List.append_assoc, List.find?_append]
    have h1 : (st.files.map (fun f => f.name)).find?
        (fun fn => pyStartsWith fn code) = none := by
      apply List.find?_eq_none.2
      intro nm hnm
      have : nm ∈ listdirRoot st := List.mem_append_left _ hnm
      simp [hfresh nm this]
    rw [h1]
    simp [pyStartsWith_of_append]
  have hread : readFile st' (code ++ txtExt) = some content := by
    unfold readFile
    rw [hst', List.find?_append]
    have h1 : st.files.find? (fun f => f.name == code ++ txtExt) = none := by
      apply List.find?_eq_none.2
      intro f hf
      rw [files_fresh_no_name st code txtExt hfresh f hf]
      simp
    rw [h1]
    simp
  unfold find_file_by_code
  simp [hup, hdir', hfind, hread, pyEndsWith_of_append]

/-- C4: writing text `T` through `create_upload` under a fresh code stores it
with CRLF and lone CR replaced by LF, and reading the code back returns
exactly that normalized content; the normalization is idempotent; and the
text-update path applies the same normalization: updating the entry with
`T2` and reading again yields `normalize T2`. -/
theorem put_text_roundtrip (st : Store) (code T : Str) (now : Nat)
    (hne : T ≠ [])
    (hup : upperStr code = code)
    (hfresh : ∀ nm ∈ listdirRoot st, pyStartsWith nm code = false) :
    create_upload st code (some T) none now
      = CreateResult.textSaved
          ((create_upload st code (some T) none now).storeD) code ∧
    find_file_by_code ((create_upload st code (some T) none now).storeD) code
      = FindResult.text (normalize T) (code ++ txtExt) ∧
    normalize (normalize T) = normalize T ∧
    (∀ T2 now2,
      update_text ((create_upload st code (some T) none now).storeD) code T2 now2
        = UpdateResult.updated
            ((update_text ((create_upload st code (some T) none now).storeD)
              code T2 now2).storeD) ∧
      find_file_by_code
          ((update_text ((create_upload st code (some T) none now).storeD)
            code T2 now2).storeD) code
        = FindResult.text (normalize T2) (code ++ txtExt)) := by
  have ht : truthyOptStr (some T) = true := by
    simp [truthyOptStr, hne]
  have hwf : st.files.any (fun f => f.name == code ++ txtExt) = false := by
    apply List.any_eq_false.2
    intro f hf
    rw [files_fresh_no_name st code txtExt hfresh f hf]
    simp
  have hst1 : create_upload st code (some T) none now
      = CreateResult.textSaved
          ⟨st.files ++ [⟨code ++ txtExt, normalize T, now⟩], st.dirs⟩ code := by
    simp [create_upload, ht, fileProvided, writeFile, hwf]
  have hsd : (create_upload st code (some T) none now).storeD
      = ⟨st.files ++ [⟨code ++ txtExt, normalize T, now⟩], st.dirs⟩ := by
    rw [hst1]
    rfl
  refine ⟨?_, ?_, normalize_idempotent T, ?_⟩
  · rw [hsd]
    exact hst1
  · rw [hsd]
    exact find_text_fresh st code (normalize T) now hup hfresh
  · intro T2 now2
    rw [hsd]
    have hpe : pathExists ⟨st.files ++ [⟨code ++ txtExt, normalize T, now⟩], st.dirs⟩
        (code ++ txtExt) = true := by
      simp [pathExists, List.any_append]
    have hndir : isDirAt ⟨st.files ++ [⟨code ++ txtExt, normalize T, now⟩], st.dirs⟩
        (code ++ txtExt) = false := by
      unfold isDirAt
      apply List.any_eq_false.2
      intro d hd
      rw [dirs_fresh_no_name st code txtExt hfresh d hd]
      simp
    have hmapfix : ∀ (fs : List FlatFile),
        (∀ f ∈ fs, (f.name == code ++ txtExt) = false) →
        fs.map (fun f => if f.name == code ++ txtExt
          then (⟨code ++ txtExt, normalize T2, now2⟩ : FlatFile) else f) = fs := by
      intro fs hfs
      induction fs with
      | nil => rfl
      | cons a l ih =>
        have ha := hfs a (List.mem_cons_self a l)
        have hl := ih (fun f hf => hfs f (List.mem_cons_of_mem a hf))
        rw [List.map_cons, hl, if_neg (by simp [ha])]
    have hany : ((st.files ++ [⟨code ++ txtExt, normalize T, now⟩] : List FlatFile).any
        (fun f => f.name == code ++ txtExt)) = true := by
      simp [List.any_append]
    have hwrite : writeFile ⟨st.files ++ [⟨code ++ txtExt, normalize T, now⟩], st.dirs⟩
        (code ++ txtExt) (normalize T2) now2
        = ⟨st.files ++ [⟨code ++ txtExt, normalize T2, now2⟩], st.dirs⟩ := by
      have h1 : (st.files ++ [⟨code ++ txtExt, normalize T, now⟩] : List FlatFile).map
          (fun f => if f.name == code ++ txtExt
            then (⟨code ++ txtExt, normalize T2, now2⟩ : FlatFile) else f)
          = st.files ++ [⟨code ++ txtExt, normalize T2, now2⟩] := by
        rw [List.map_append, hmapfix st.files (files_fresh_no_name st code txtExt hfresh)]
        simp
      simp only [writeFile]
      rw [if_pos hany]
      exact congrArg (fun l => Store.mk l st.dirs) h1
    have hupd : update_text ⟨st.files ++ [⟨code ++ txtExt, normalize T, now⟩], st.dirs⟩
        code T2 now2
        = UpdateResult.updated ⟨st.files ++ [⟨code ++ txtExt, normalize T2, now2⟩], st.dirs⟩ := by
      simp [update_text, hup, hpe, hndir, hwrite]
    rw [hupd]
    exact ⟨rfl, find_text_fresh st code (normalize T2) now2 hup hfresh⟩

/-- C4 witness: the round-trip theorem at a concrete store, code, and
contents with CRLF and lone CR line endings. -/
theorem put_text_roundtrip_witness :
    create_upload ⟨[], []⟩ "ABCDEF".toList (some "a\r\nb\rc".toList) none 3
      = CreateResult.textSaved
          ((create_upload ⟨[], []⟩ "ABCDEF".toList
            (some "a\r\nb\rc".toList) none 3).storeD) "ABCDEF".toList ∧
    find_file_by_code
        ((create_upload ⟨[], []⟩ "ABCDEF".toList
          (some "a\r\nb\rc".toList) none 3).storeD) "ABCDEF".toList
      = FindResult.text "a\nb\nc".toList "ABCDEF.txt".toList ∧
    update_text
        ((create_upload ⟨[], []⟩ "ABCDEF".toList
          (some "a\r\nb\rc".toList) none 3).storeD) "ABCDEF".toList "x\r\ny".toList 9
      = UpdateResult.updated
          ((update_text
            ((create_upload ⟨[], []⟩ "ABCDEF".toList
              (some "a\r\nb\rc".toList) none 3).storeD)
            "ABCDEF".toList "x\r\ny".toList 9).storeD) ∧
    find_file_by_code
        ((update_text
          ((create_upload ⟨[], []⟩ "ABCDEF".toList
            (some "a\r\nb\rc".toList) none 3).storeD)
          "ABCDEF".toList "x\r\ny".toList 9).storeD) "ABCDEF".toList
      = FindResult.text "x\ny".toList "ABCDEF.txt".toList := by
  have h := put_text_roundtrip ⟨[], []⟩ "ABCDEF".toList "a\r\nb\rc".toList 3
    (by decide) (by decide) (by decide)
  refine ⟨h.1, ?_, (h.2.2.2 "x\r\ny".toList 9).1, ?_⟩
  · have h2 := h.2.1
    rw [h2]
    decide
  · have h3 := (h.2.2.2 "x\r\ny".toList 9).2
    rw [h3]
    decide

/-! ## C6 and C9 - file-group creation -/

theorem basename_no_sep (p : Str) : '/' ∉ basename p := by
  intro h
  have hmem := List.mem_reverse.1 (by simpa [basename] using h)
  have := List.mem_takeWhile_imp hmem
  simp at this

theorem find?_name_map (s : List GroupDir) (g : GroupDir → GroupDir)
    (hg : ∀ d, (g d).name = d.name) (nm : Str) :
    (s.map g).find? (fun d => d.name == nm)
      = (s.find? (fun d => d.name == nm)).map g := by
  induction s with
  | nil => rfl
  | cons d rest ih =>
    by_cases h : (d.name == nm) = true
    · rw [List.map_cons,
        @List.find?_cons_of_pos _ (fun d0 => d0.name == nm) (g d) (rest.map g)
          (by show ((g d).name == nm) = true; rw [hg d]; exact h),
        @List.find?_cons_of_pos _ (fun d0 => d0.name == nm) d rest h]
      rfl
    · rw [List.map_cons,
        @List.find?_cons_of_neg _ (fun d0 => d0.name == nm) (g d) (rest.map g)
          (by show ¬((g d).name == nm) = true; rw [hg d]; exact h),
        @List.find?_cons_of_neg _ (fun d0 => d0.name == nm) d rest h, ih]

theorem writeMember_findDir (s : Store) (code b c : Str) :
    findDir (writeMember s code b c) code
      = (findDir s code).map (fun d =>
          if d.name == code then
            { d with members :=
                if d.members.any (fun m => m.1 == b) then
                  d.members.map (fun m => if m.1 == b then (b, c) else m)
                else d.members ++ [(b, c)] }
          else d) := by
  unfold writeMember findDir
  exact find?_name_map s.dirs _
    (fun d => by by_cases h : (d.name == code) = true <;> simp [h]) code

theorem writeMember_findDir_some (s : Store) (code b c : Str)
    (hd : findDir s code ≠ none) :
    findDir (writeMember s code b c) code ≠ none := by
  rw [writeMember_findDir]
  cases hfd : findDir s code with
  | none => exact absurd hfd hd
  | some d => simp

theorem writeMember_members_mem (s : Store) (code b c m : Str)
    (hd : findDir s code ≠ none) :
    (m ∈ groupMembers (writeMember s code b c) code ↔
      (m ∈ groupMembers s code ∨ m = b)) := by
  cases hfd : findDir s code with
  | none => exact absurd hfd hd
  | some d =>
    have hfd' : s.dirs.find? (fun d0 => d0.name == code) = some d := hfd
    have hname : (d.name == code) = true := by
      simpa using List.find?_some hfd'
    unfold groupMembers
    rw [writeMember_findDir, hfd, Option.map_some', if_pos hname]
    by_cases hmem : (d.members.any (fun m0 => m0.1 == b)) = true
    · rw [if_pos hmem]
      have hnames : (d.members.map (fun m0 => if m0.1 == b then (b, c) else m0)).map
          (fun m0 => m0.1) = d.members.map (fun m0 => m0.1) := by
        rw [List.map_map]
        apply List.map_congr_left
        intro a _
        simp only [Function.comp_apply]
        by_cases hab : (a.1 == b) = true
        · rw [if_pos hab]
          have hab' : a.1 = b := by simpa using hab
          simp [hab']
        · rw [if_neg hab]
      show m ∈ (d.members.map fun m0 => if m0.1 == b then (b, c) else m0).map
          (fun m0 => m0.1) ↔ _
      rw [hnames]
      rcases List.any_eq_true.1 hmem with ⟨m0, hm0, hm0b⟩
      have hbmem : b ∈ d.members.map (fun m0 => m0.1) := by
        have hm0b' : m0.1 = b := by simpa using hm0b
        exact hm0b' ▸ List.mem_map_of_mem _ hm0
      constructor
      · exact Or.inl
      · rintro (h | h)
        · exact h
        · rw [h]
          exact hbmem
    · rw [if_neg hmem]
      show m ∈ (d.members ++ [(b, c)]).map (fun m0 => m0.1) ↔ _
      rw [List.map_append]
      simp [List.mem_append]

theorem upload_fold_saved (code : Str) :
    ∀ (fs : List (Str × Str)) (acc : Store × List Str),
      (fs.foldl (uploadStep code) acc).2
        = acc.2 ++ (fs.filter (fun pf => !pf.1.isEmpty)).map (fun pf => basename pf.1)
  | [], acc => by simp
  | pf :: rest, acc => by
    rw [List.foldl_cons]
    by_cases he : pf.1.isEmpty = true
    · have hstep : uploadStep code acc pf = acc := by simp [uploadStep, he]
      rw [hstep, upload_fold_saved code rest acc]
      simp [List.filter_cons, he]
    · have he' : pf.1.isEmpty = false := by simpa using he
      have hstep : uploadStep code acc pf
          = (writeMember acc.1 code (basename pf.1) pf.2, acc.2 ++ [basename pf.1]) := by
        simp [uploadStep, he']
      rw [hstep, upload_fold_saved code rest _]
      simp [List.filter_cons, he']

theorem upload_fold_members (code : Str) :
    ∀ (fs : List (Str × Str)) (s : Store) (saved : List Str),
      findDir s code ≠ none →
      (∀ m, m ∈ groupMembers s code ↔ m ∈ saved) →
      (findDir (fs.foldl (uploadStep code) (s, saved)).1 code ≠ none ∧
        ∀ m, m ∈ groupMembers (fs.foldl (uploadStep code) (s, saved)).1 code ↔
          m ∈ (fs.foldl (uploadStep code) (s, saved)).2)
  | [], _, _, hne, hinv => ⟨hne, hinv⟩
  | pf :: rest, s, saved, hne, hinv => by
    rw [List.foldl_cons]
    by_cases he : pf.1.isEmpty = true
    · have hstep : uploadStep code (s, saved) pf = (s, saved) := by
        simp [uploadStep, he]
      rw [hstep]
      exact upload_fold_members code rest s saved hne hinv
    · have he' : pf.1.isEmpty = false := by simpa using he
      have hstep : uploadStep code (s, saved) pf
          = (writeMember s code (basename pf.1) pf.2, saved ++ [basename pf.1]) := by
        simp [uploadStep, he']
      rw [hstep]
      apply upload_fold_members code rest _ _
      · exact writeMember_findDir_some s code _ _ hne
      · intro m
        rw [writeMember_members_mem s code _ _ m hne, List.mem_append]
        constructor
        · rintro (h | h)
          · exact Or.inl ((hinv m).1 h)
          · exact Or.inr (by simpa using h)
        · rintro (h | h)
          · exact Or.inl ((hinv m).2 h)
          · exact Or.inr (by simpa using h)

/-- When every non-empty client filename has a non-degenerate basename, no
`open` in the loop raises, and the loop computes the `uploadStep` fold. -/
theorem uploadLoop_eq_foldl (code : Str) :
    ∀ (fs : List (Str × Str)) (acc : Store × List Str),
      (∀ pf ∈ fs, pf.1.isEmpty = false → degenerateName (basename pf.1) = false) →
      uploadLoop code fs acc = .ok (fs.foldl (uploadStep code) acc)
  | [], _, _ => rfl
  | pf :: rest, acc, hgood => by
    rw [List.foldl_cons]
    by_cases he : pf.1.isEmpty = true
    · have hL : uploadLoop code (pf :: rest) acc = uploadLoop code rest acc := by
        simp [uploadLoop, he]
      have hstep : uploadStep code acc pf = acc := by simp [uploadStep, he]
      rw [hL, hstep]
      exact uploadLoop_eq_foldl code rest acc
        (fun q hq => hgood q (List.mem_cons_of_mem pf hq))
    · have he' : pf.1.isEmpty = false := by simpa using he
      have hdeg : degenerateName (basename pf.1) = false :=
        hgood pf (List.mem_cons_self pf rest) he'
      have hL : uploadLoop code (pf :: rest) acc
          = uploadLoop code rest
              (writeMember acc.1 code (basename pf.1) pf.2, acc.2 ++ [basename pf.1]) := by
        simp [uploadLoop, he', hdeg]
      have hstep : uploadStep code acc pf
          = (writeMember acc.1 code (basename pf.1) pf.2, acc.2 ++ [basename pf.1]) := by
        simp [uploadStep, he']
      rw [hL, hstep]
      exact uploadLoop_eq_foldl code rest _
        (fun q hq => hgood q (List.mem_cons_of_mem pf hq))

theorem makeDir_fresh (st : Store) (code : Str) (now : Nat)
    (h : findDir st code = none) :
    makeDir st code now = ⟨st.files, st.dirs ++ [⟨code, [], now⟩]⟩ ∧
    findDir (makeDir st code now) code = some ⟨code, [], now⟩ := by
  have hany : st.dirs.any (fun d => d.name == code) = false := by
    apply List.any_eq_false.2
    intro d hd
    have := List.find?_eq_none.1 h d hd
    simpa using this
  have hmk : makeDir st code now = ⟨st.files, st.dirs ++ [⟨code, [], now⟩]⟩ := by
    simp [makeDir, hany]
  refine ⟨hmk, ?_⟩
  rw [hmk]
  unfold findDir
  have h' : st.dirs.find? (fun d => d.name == code) = none := h
  rw [List.find?_append, h']
  simp

/-- C6 (amended): `upload_multiple` under a fresh code, for a batch in which
every non-empty client filename has a non-degenerate basename (so no `open`
in the loop raises): an empty batch is the "No files" 400; members with
empty filenames are skipped without failing; if every filename is empty the
result is the "No valid files" 400; and otherwise the reply carries the code
together with the basenames of exactly the non-empty-named members, and the
persisted group directory contains exactly those member names. -/
theorem upload_multiple_spec (st : Store) (code : Str) (files : List (Str × Str))
    (now : Nat) (hfresh : findDir st code = none) :
    (files = [] → upload_multiple st code files now = MultiResult.noFiles) ∧
    (files ≠ [] → (∀ pf ∈ files, pf.1 = []) →
      (upload_multiple st code files now).isNoValid = true) ∧
    (files ≠ [] →
      (∀ pf ∈ files, pf.1.isEmpty = false → degenerateName (basename pf.1) = false) →
      ¬(∀ pf ∈ files, pf.1 = []) →
      upload_multiple st code files now
        = MultiResult.ok ((upload_multiple st code files now).storeD) code
            ((files.filter (fun pf => !pf.1.isEmpty)).map (fun pf => basename pf.1)) ∧
      ∀ m, m ∈ groupMembers ((upload_multiple st code files now).storeD) code ↔
        m ∈ (files.filter (fun pf => !pf.1.isEmpty)).map (fun pf => basename pf.1)) := by
  obtain ⟨hmk, hfd⟩ := makeDir_fresh st code now hfresh
  have hsaved := upload_fold_saved code files (makeDir st code now, ([] : List Str))
  have hgm : ∀ m, m ∈ groupMembers (makeDir st code now) code ↔ m ∈ ([] : List Str) := by
    intro m
    unfold groupMembers
    rw [hfd]
    simp
  have hfold := upload_fold_members code files (makeDir st code now) []
    (by rw [hfd]; simp) hgm
  refine ⟨?_, ?_, ?_⟩
  · intro he
    subst he
    rfl
  · intro hne hall
    have hgood : ∀ pf ∈ files, pf.1.isEmpty = false →
        degenerateName (basename pf.1) = false := by
      intro pf hpf hne'
      rw [hall pf hpf] at hne'
      simp at hne'
    have hloop := uploadLoop_eq_foldl code files (makeDir st code now, ([] : List Str)) hgood
    have hnil : files.filter (fun pf => !pf.1.isEmpty) = [] := by
      apply List.filter_eq_nil_iff.2
      intro pf hpf
      simp [hall pf hpf]
    have hs2 : (files.foldl (uploadStep code) (makeDir st code now, ([] : List Str))).2
        = [] := by
      rw [hsaved, hnil]
      simp
    simp [upload_multiple, List.isEmpty_iff, hne, hloop, hs2, MultiResult.isNoValid]
  · intro hne hgood hnall
    have hloop := uploadLoop_eq_foldl code files (makeDir st code now, ([] : List Str)) hgood
    have hfne : files.filter (fun pf => !pf.1.isEmpty) ≠ [] := by
      intro hnil
      apply hnall
      intro pf hpf
      have := List.filter_eq_nil_iff.1 hnil pf hpf
      simpa using this
    have hs2 : (files.foldl (uploadStep code) (makeDir st code now, ([] : List Str))).2
        = (files.filter (fun pf => !pf.1.isEmpty)).map (fun pf => basename pf.1) := by
      rw [hsaved]
      simp
    have hs2ne : (files.foldl (uploadStep code) (makeDir st code now, ([] : List Str))).2
        ≠ [] := by
      rw [hs2]
      simpa using hfne
    have hupl : upload_multiple st code files now
        = MultiResult.ok
            (files.foldl (uploadStep code) (makeDir st code now, ([] : List Str))).1
            code
            (files.foldl (uploadStep code) (makeDir st code now, ([] : List Str))).2 := by
      simp [upload_multiple, List.isEmpty_iff, hne, hloop, hs2ne]
    constructor
    · rw [hupl, hs2]
      rfl
    · intro m
      have h2 := hfold.2 m
      rw [hs2] at h2
      rw [hupl]
      exact h2

/-- C6 witness: the spec's concrete example — one real member plus one
empty-named member yields a group containing only `a.txt`; an all-empty
batch is the "No valid files" 400. -/
theorem upload_multiple_spec_witness :
    (upload_multiple ⟨[], []⟩ "ABCDEF".toList [([], "skip".toList)] 5).isNoValid
      = true ∧
    upload_multiple ⟨[], []⟩ "ABCDEF".toList
        [("a.txt".toList, "hi".toList), ([], "skip".toList)] 5
      = MultiResult.ok
          ((upload_multiple ⟨[], []⟩ "ABCDEF".toList
            [("a.txt".toList, "hi".toList), ([], "skip".toList)] 5).storeD)
          "ABCDEF".toList ["a.txt".toList] ∧
    ("a.txt".toList ∈ groupMembers
        ((upload_multiple ⟨[], []⟩ "ABCDEF".toList
          [("a.txt".toList, "hi".toList), ([], "skip".toList)] 5).storeD)
        "ABCDEF".toList ↔ "a.txt".toList ∈ ["a.txt".toList]) := by
  have h1 := (upload_multiple_spec ⟨[], []⟩ "ABCDEF".toList
    [([], "skip".toList)] 5 (by decide)).2.1 (by decide) (by decide)
  have h2 := (upload_multiple_spec ⟨[], []⟩ "ABCDEF".toList
    [("a.txt".toList, "hi".toList), ([], "skip".toList)] 5 (by decide)).2.2
    (by decide) (by decide) (by decide)
  exact ⟨h1, h2.1, h2.2 "a.txt".toList⟩

/-- C6 counterexample: a member whose non-empty client filename `a/` has the
degenerate basename `""` is neither persisted nor rejected with the 400 —
`open` on the directory path raises an uncaught `IsADirectoryError`, the
request fails with a server error, and the group stays empty. -/
theorem upload_multiple_degenerate_basename_raises :
    upload_multiple ⟨[], []⟩ "ABCDEF".toList [("a/".toList, "x".toList)] 5
      = MultiResult.ioError ⟨[], [⟨"ABCDEF".toList, [], 5⟩]⟩ ∧
    groupMembers ((upload_multiple ⟨[], []⟩ "ABCDEF".toList
        [("a/".toList, "x".toList)] 5).storeD) "ABCDEF".toList = [] :=
  ⟨by decide, by decide⟩

theorem writeMember_dirs_names (s : Store) (code b c : Str) :
    ∀ d ∈ (writeMember s code b c).dirs, d.name = code ∨ d ∈ s.dirs := by
  intro d hd
  have h' : d ∈ s.dirs.map (fun d0 =>
      if d0.name == code then
        { d0 with members :=
            if d0.members.any (fun m => m.1 == b) then
              d0.members.map (fun m => if m.1 == b then (b, c) else m)
            else d0.members ++ [(b, c)] }
      else d0) := hd
  rcases List.mem_map.1 h' with ⟨d0, hd0, hgd⟩
  by_cases hn : (d0.name == code) = true
  · left
    rw [← hgd, if_pos hn]
    simpa using hn
  · right
    rw [← hgd, if_neg hn]
    exact hd0

theorem uploadLoop_files_dirs (code : Str) :
    ∀ (fs : List (Str × Str)) (acc res : Store × List Str),
      uploadLoop code fs acc = .ok res →
      (res.1.files = acc.1.files ∧
        ∀ d ∈ res.1.dirs, d.name = code ∨ d ∈ acc.1.dirs)
  | [], acc, res, h => by
    have hres : acc = res := by simpa [uploadLoop] using h
    rw [← hres]
    exact ⟨rfl, fun _ hd => Or.inr hd⟩
  | pf :: rest, acc, res, h => by
    by_cases he : pf.1.isEmpty = true
    · rw [show uploadLoop code (pf :: rest) acc = uploadLoop code rest acc from by
        simp [uploadLoop, he]] at h
      exact uploadLoop_files_dirs code rest acc res h
    · have he' : pf.1.isEmpty = false := by simpa using he
      by_cases hdeg : degenerateName (basename pf.1) = true
      · rw [show uploadLoop code (pf :: rest) acc = .error acc.1 from by
          simp [uploadLoop, he', hdeg]] at h
        exact absurd h (by simp)
      · have hdeg' : degenerateName (basename pf.1) = false := by simpa using hdeg
        rw [show uploadLoop code (pf :: rest) acc
            = uploadLoop code rest
                (writeMember acc.1 code (basename pf.1) pf.2,
                  acc.2 ++ [basename pf.1]) from by
          simp [uploadLoop, he', hdeg']] at h
        have hrec := uploadLoop_files_dirs code rest
          (writeMember acc.1 code (basename pf.1) pf.2, acc.2 ++ [basename pf.1]) res h
        refine ⟨by rw [hrec.1]; rfl, ?_⟩
        intro d hd
        rcases hrec.2 d hd with h1 | h1
        · exact Or.inl h1
        · exact writeMember_dirs_names acc.1 code (basename pf.1) pf.2 d h1

theorem makeDir_dirs (st : Store) (code : Str) (now : Nat) :
    (makeDir st code now).files = st.files ∧
    ∀ d ∈ (makeDir st code now).dirs, d.name = code ∨ d ∈ st.dirs := by
  unfold makeDir
  split
  · exact ⟨rfl, fun _ hd => Or.inr hd⟩
  · refine ⟨rfl, ?_⟩
    intro d hd
    rcases List.mem_append.1 hd with h | h
    · exact Or.inr h
    · left
      have hd' : d = ⟨code, [], now⟩ := by simpa using h
      rw [hd']

/-- C9: every member of a successful group upload is stored under the
basename of its client-supplied filename — which contains no path
separator — and the upload touches nothing outside the group's code
directory: the flat files are untouched and every directory of the
resulting store either is the group's own directory or was already
present. -/
theorem upload_group_containment (st : Store) (code : Str)
    (files : List (Str × Str)) (now : Nat) (st' : Store) (c : Str)
    (saved : List Str)
    (hok : upload_multiple st code files now = MultiResult.ok st' c saved) :
    (∀ pf ∈ files, '/' ∉ basename pf.1) ∧
    st'.files = st.files ∧
    (∀ d ∈ st'.dirs, d.name = code ∨ d ∈ st.dirs) := by
  have hne : files.isEmpty = false := by
    by_cases h : files.isEmpty = true
    · exfalso
      simp [upload_multiple, h] at hok
    · simpa using h
  rw [upload_multiple] at hok
  rw [if_neg (by simp [hne])] at hok
  cases hloop : uploadLoop code files (makeDir st code now, ([] : List Str)) with
  | error stPart =>
    simp only [hloop] at hok
    exact absurd hok (by simp)
  | ok res =>
    simp only [hloop] at hok
    by_cases h2 : res.2.isEmpty = true
    · rw [if_pos h2] at hok
      exact absurd hok (by simp)
    · rw [if_neg h2] at hok
      injection hok with ha hb hc
      obtain ⟨hfiles0, hdirs0⟩ := uploadLoop_files_dirs code files
        (makeDir st code now, ([] : List Str)) res hloop
      obtain ⟨hmfiles, hmdirs⟩ := makeDir_dirs st code now
      refine ⟨fun pf _ => basename_no_sep pf.1, ?_, ?_⟩
      · rw [← ha, hfiles0]
        exact hmfiles
      · intro d hd
        rw [← ha] at hd
        rcases hdirs0 d hd with h | h
        · exact Or.inl h
        · rcases hmdirs d h with h' | h'
          · exact Or.inl h'
          · exact Or.inr h'

/-- C9 witness: a member with a path-separated client filename lands under
its basename inside the group directory, leaving the flat files untouched. -/
theorem upload_group_containment_witness :
    (Store.mk []
        [⟨"ABCDEF".toList, [("b.txt".toList, "hi".toList)], 5⟩]).files
      = ([] : List FlatFile) ∧
    basename "a/b.txt".toList = "b.txt".toList := by
  have h := upload_group_containment ⟨[], []⟩ "ABCDEF".toList
    [("a/b.txt".toList, "hi".toList)] 5
    ⟨[], [⟨"ABCDEF".toList, [("b.txt".toList, "hi".toList)], 5⟩]⟩
    "ABCDEF".toList ["b.txt".toList] (by decide)
  exact ⟨h.2.1, by decide⟩

end QuickShare
